import Mathlib

/- Shallow embedding of the neocortex entity-extraction pipeline:
   src/extractors/extractor.py, src/utils/text/processors.py,
   src/utils/markdown/formatter.py, src/utils/markdown/parser.py and
   src/extractors/entity_aggregator.py.
   Python strings are modelled as lists of characters (`Str`); the
   regular-expression substitutions used by the code are modelled by direct
   scanning functions over those lists, restricted to the ASCII fragment the
   data uses (`lower`, `\w`, `\s`, `isdigit` are ASCII here). -/

/-- Python strings modelled as lists of characters. -/
abbrev Str := List Char

/-- Character list of a Lean string literal. -/
def sd (s : String) : Str := s.data

/-- Python whitespace (the set used by `str.split()` / `str.strip()`). -/
def isPySpace (c : Char) : Bool :=
  c = ' ' || c = '\t' || c = '\n' || c = '\r' || c = Char.ofNat 11 || c = Char.ofNat 12

/-- A regex word character (`\w`), ASCII fragment. -/
def isWordChar (c : Char) : Bool := c.isAlphanum || c = '_'

/-- Word-character test on an optional character; `none` (an end of the
string) counts as a non-word position. -/
def isWordOpt : Option Char → Bool
  | some c => isWordChar c
  | none => false

/-- Split a character list at every character satisfying `p`
(like Python `str.split(sep)` for a one-character separator class). -/
def splitP (p : Char → Bool) : Str → List Str
  | [] => [[]]
  | c :: rest =>
    match splitP p rest with
    | [] => []
    | h :: t => if p c then [] :: h :: t else (c :: h) :: t

/-- Python `str.split()` with no argument: whitespace-separated words,
empty pieces dropped. -/
def pyWords (s : Str) : List Str := (splitP isPySpace s).filter (fun w => !w.isEmpty)

/-- Join pieces with a separator (Python `sep.join(...)`). -/
def interc (sep : Str) : List Str → Str
  | [] => []
  | [x] => x
  | x :: y :: rest => x ++ sep ++ interc sep (y :: rest)

/-- Python `' '.join(text.split())`: collapse all whitespace runs to single
spaces and trim the ends. -/
def collapseWs (s : Str) : Str := interc [' '] (pyWords s)

/-- Python `str.strip()` (no argument): remove leading and trailing
whitespace. -/
def stripWs (s : Str) : Str :=
  ((s.dropWhile isPySpace).reverse.dropWhile isPySpace).reverse

/-- Python `str.strip(chars)`: remove leading and trailing characters drawn
from the set `cs`. -/
def stripSet (cs : List Char) (s : Str) : Str :=
  ((s.dropWhile (fun c => cs.contains c)).reverse.dropWhile (fun c => cs.contains c)).reverse

/-- Python `str.lower()` (ASCII fragment, via `Char.toLower`). -/
def lowerStr (s : Str) : Str := s.map Char.toLower

/-- Python `str.isdigit()` (ASCII fragment): nonempty and all digits. -/
def isDigitStr (s : Str) : Bool := !s.isEmpty && s.all Char.isDigit

/-- The substitution `re.sub(r"'s?\b", '', text)` from `normalize_entity`:
scan left to right; at an apostrophe try to match `'s` and then a bare `'`,
each subject to a trailing word-boundary check, and delete the match. -/
def possSub : Str → Str
  | [] => []
  | c :: rest =>
    if c = '\'' then
      match rest with
      | 's' :: rest2 =>
        if isWordOpt rest2.head? then 's' :: possSub rest2 else possSub rest2
      | c2 :: rest2 =>
        if isWordChar c2 then c2 :: possSub rest2 else '\'' :: possSub (c2 :: rest2)
      | [] => ['\'']
    else c :: possSub rest

/-- The corporate-suffix tokens of `normalize_entity`. -/
def sfxTokens : List Str :=
  [sd "inc", sd "corp", sd "corporation", sd "ltd", sd "limited",
   sd "llc", sd "llp", sd "lp", sd "plc"]

/-- Candidate matches of `\b(inc|...|plc)\b\.?` ending at the anchor:
each token, optionally followed by a period. -/
def sfxCandidates : List Str :=
  (sfxTokens.map (fun t => [t, t ++ ['.']])).flatten

/-- Does candidate `sfx` match at the very end of `u`, with a word boundary
before it?  (The boundary after the token always holds: the next character is
a period, a final newline, or the end of the string.) -/
def sfxOk (u : Str) (sfx : Str) : Bool :=
  sfx.reverse.isPrefixOf u.reverse && !(isWordOpt ((u.reverse.drop sfx.length).head?))

/-- Length of the leftmost (hence longest) end-anchored corporate-suffix
match in `u`, if any. -/
def sfxMatchLen (u : Str) : Option Nat :=
  (sfxCandidates.filter (sfxOk u)).foldl
    (fun best sfx =>
      match best with
      | none => some sfx.length
      | some b => some (max b sfx.length))
    none

/-- The substitution `re.sub(r'\b(inc|...|plc)\b\.?$', '', text)`:
`$` matches at the end of the string or just before a final newline. -/
def suffixSub (s : Str) : Str :=
  if s.getLast? = some '\n' then
    let u := s.dropLast
    match sfxMatchLen u with
    | some L => u.take (u.length - L) ++ ['\n']
    | none => s
  else
    match sfxMatchLen s with
    | some L => s.take (s.length - L)
    | none => s

/-- `normalize_entity` (extractor.py lines 73-88 and processors.py lines
33-55): lowercase, strip possessives, strip one trailing corporate suffix,
collapse whitespace, trim. -/
def normalizeEntity (s : Str) : Str :=
  stripWs (collapseWs (suffixSub (possSub (lowerStr s))))

/-- One alternative of `re.sub(r'^(the|a|an)\s+', '', text, flags=I)`:
if `s` starts (case-insensitively) with `art` followed by at least one
whitespace character, drop the article and the whitespace run. -/
def tryArticle (art : Str) (s : Str) : Option Str :=
  let rest := s.drop art.length
  if lowerStr (s.take art.length) = art then
    match rest.head? with
    | some c => if isPySpace c then some (rest.dropWhile isPySpace) else none
    | none => none
  else none

/-- `re.sub(r'^(the|a|an)\s+', '', text, flags=I)` with the regex engine's
alternation order. -/
def articleSub (s : Str) : Str :=
  match tryArticle (sd "the") s with
  | some r => r
  | none =>
    match tryArticle (sd "a") s with
    | some r => r
    | none =>
      match tryArticle (sd "an") s with
      | some r => r
      | none => s

/-- `re.sub(r"'s$", '', text)` (case-sensitive). -/
def subApoS (s : Str) : Str :=
  match s.reverse with
  | 's' :: '\'' :: rest => rest.reverse
  | _ => s

/-- `re.sub(r"s'$", 's', text)` (case-sensitive). -/
def subSApo (s : Str) : Str :=
  match s.reverse with
  | '\'' :: 's' :: rest => ('s' :: rest).reverse
  | _ => s

/-- The possessive-noun phrases of `clean_entity_text`. -/
def phraseWords : List Str :=
  [sd "own", sd "part", sd "share", sd "portion", sd "division",
   sd "subsidiary", sd "segment"]

/-- Match `'s\s+(word)$` case-insensitively against the reversed string `r`;
on success return the remainder (in original order). -/
def phraseTry (w : Str) (r : Str) : Option Str :=
  if lowerStr (r.take w.length) = w.reverse then
    let r1 := r.drop w.length
    let r2 := r1.dropWhile isPySpace
    if r1.length ≠ r2.length then
      match r2 with
      | c :: '\'' :: rest => if Char.toLower c = 's' then some rest.reverse else none
      | _ => none
    else none
  else none

/-- `re.sub(r"'s\s+(own|part|share|portion|division|subsidiary|segment)$",
'', text, flags=I)`. -/
def phraseSub (s : Str) : Str :=
  match phraseWords.findSome? (fun w => phraseTry w s.reverse) with
  | some res => res
  | none => s

/-- The punctuation set of `text.strip('"\'. ,;:()[]{}')` (written out as
characters). -/
def punctSet : List Char :=
  ['"', '\'', '.', ',', ';', ':', '(', ')', '[', ']', Char.ofNat 123, Char.ofNat 125]

/-- `clean_entity_text` (extractor.py lines 18-39 and processors.py lines
5-31): collapse whitespace, strip a leading article, strip trailing
possessive forms and possessive-noun phrases, strip edge punctuation,
trim. -/
def cleanEntityText (s : Str) : Str :=
  stripWs (stripSet punctSet (phraseSub (subSApo (subApoS (articleSub (collapseWs s))))))

/-- `entities_match` (extractor.py lines 90-92). -/
def entitiesMatch (e1 e2 : Str) : Bool := normalizeEntity e1 = normalizeEntity e2

/- ===== Mention Deduplicator (extractor.py `process_chunk` / `extract_entities`) ===== -/

/-- A raw NER mention as consumed by `process_chunk`: the spaCy label, the
raw surface text, and the context string `get_context` would return for its
span (the context computation walks the external spaCy `Doc`, so the context
is carried as data here). -/
structure Mention where
  label : Str
  text : Str
  ctx : Str
deriving DecidableEq, Repr

/-- An entity tuple `(ent.label_, original_text)` as stored in the
`entities` set. -/
abbrev Entity := Str × Str

/-- The context cache `existing_contexts`: a dict keyed by entity tuple. -/
abbrev Ctxs := List (Entity × Str)

/-- `target_types` from `process_chunk`. -/
def targetTypes : List Str :=
  [sd "PERSON", sd "ORG", sd "GPE", sd "LOC", sd "PRODUCT", sd "EVENT", sd "FAC"]

/-- Dict lookup in the context cache. -/
def ctxLookup (cx : Ctxs) (k : Entity) : Option Str :=
  (cx.find? (fun kv => kv.1 = k)).map (fun kv => kv.2)

/-- `entities.add(t)`: Python set insertion (no-op when already present). -/
def insertSet (es : List Entity) (t : Entity) : List Entity :=
  if t ∈ es then es else es ++ [t]

/-- The running state of one `process_chunk` call: the chunk-local
`entities` set and the (document-wide) `existing_contexts` cache. -/
structure DState where
  entities : List Entity
  ctxs : Ctxs
deriving DecidableEq, Repr

/-- The body of the `for ent in doc.ents` loop of `process_chunk`
(extractor.py lines 102-131) for a single mention. -/
def stepMention (st : DState) (m : Mention) : DState :=
  if m.label ∈ targetTypes then
    let orig := cleanEntityText m.text
    if orig.length ≤ 1 ∨ isDigitStr orig then st
    else
      let nkey := normalizeEntity orig
      let tuple :=
        match st.entities.find? (fun e => decide (e.1 = m.label ∧ normalizeEntity e.2 = nkey)) with
        | some e => e
        | none => (m.label, orig)
      let ctxs' := if ctxLookup st.ctxs tuple = none then st.ctxs ++ [(tuple, m.ctx)] else st.ctxs
      { entities := insertSet st.entities tuple, ctxs := ctxs' }
  else st

/-- `process_chunk` (extractor.py lines 94-133): fold the mention sequence of
one chunk, starting from an empty chunk-local entity set and the given
context cache. -/
def processChunk (ms : List Mention) (cx : Ctxs) : DState :=
  ms.foldl stepMention ⟨[], cx⟩

/-- The multi-chunk path of `extract_entities` (extractor.py lines 141-148):
each chunk is processed with a fresh chunk-local entity set, the results are
unioned into `all_entities`, and the context cache is threaded through. -/
def processDoc (chunks : List (List Mention)) : List Entity × Ctxs :=
  chunks.foldl
    (fun acc ch =>
      let st := processChunk ch acc.2
      (st.entities.foldl insertSet acc.1, st.ctxs))
    ([], [])

/-- `extract_entities` with a fallible NER capability: `nlp(text)` may raise
inside `process_chunk`, and extractor.py installs no handler, so an
exception aborts the remaining chunks and propagates to the caller.  Each
list element is the outcome of the NER call on one chunk. -/
def extractEntitiesE (rs : List (Except Unit (List Mention))) (acc : List Entity × Ctxs) :
    Except Unit (List Entity × Ctxs) :=
  match rs with
  | [] => Except.ok acc
  | Except.error e :: _ => Except.error e
  | Except.ok ms :: rest =>
    let st := processChunk ms acc.2
    extractEntitiesE rest (st.entities.foldl insertSet acc.1, st.ctxs)

/- ===== Text Chunker (extractor.py `chunk_text`) ===== -/

/-- Clamp a Python slice index to `[0, n]` (negative indices count from the
end). -/
def clampIdx (n : Nat) (i : Int) : Nat :=
  if i < 0 then (if (n : Int) + i < 0 then 0 else ((n : Int) + i).toNat)
  else min i.toNat n

/-- Python slicing `s[a:b]` with integer (possibly negative) bounds. -/
def pySlice (s : Str) (a b : Int) : Str :=
  (s.take (clampIdx s.length b)).drop (clampIdx s.length a)

/-- Does `pat` occur in `s` starting at position `i`? -/
def occAt (pat s : Str) (i : Nat) : Bool := pat.isPrefixOf (s.drop i)

/-- Python `s.rfind(pat)`: highest start index of an occurrence, `-1` when
absent. -/
def pyRfind (pat s : Str) : Int :=
  match (((List.range (s.length + 1)).filter (occAt pat s)).getLast?) with
  | some i => (i : Int)
  | none => -1

/-- One iteration of the `while start < text_length` loop of `chunk_text`
(extractor.py lines 46-63): returns the updated cursor (`start = end`) and
the chunk that was appended. -/
def chunkStep (t : Str) (cs ov : Nat) (start : Int) : Int × Str :=
  let n : Int := t.length
  let end0 : Int := start + cs
  let endF : Int :=
    if end0 < n then
      let region := pySlice t (end0 - ov) (end0 + ov)
      let b1 := pyRfind (sd ". ") region
      let b2 := pyRfind (sd "\n") region
      let b3 := pyRfind (sd ". \n") region
      let best := max (max b1 b2) b3
      if best ≠ -1 then end0 - ov + best + 1 else end0
    else end0
  (endF, pySlice t start endF)

/-- The `chunk_text` loop with explicit fuel; `none` means the fuel ran out,
i.e. the Python loop would still be running after that many iterations. -/
def chunkGo (t : Str) (cs ov : Nat) : Nat → Int → List Str → Option (List Str)
  | 0, _, _ => none
  | fuel + 1, start, acc =>
    if start < (t.length : Int) then
      let s := chunkStep t cs ov start
      chunkGo t cs ov fuel s.1 (acc ++ [s.2])
    else some acc

/-- `chunk_text` (extractor.py lines 41-65).  `t.length + 1` iterations are
enough whenever the loop terminates at all, since the cursor starts at `0`
and the loop runs only while it is below `t.length`, advancing by at least
one position per iteration under the valid-parameter precondition. -/
def chunkText (t : Str) (cs ov : Nat) : Option (List Str) :=
  chunkGo t cs ov (t.length + 1) 0 []

/- ===== Entity Table Codec (utils/markdown/formatter.py, parser.py) ===== -/

/-- The column list of a per-document entity table. -/
def docCols : List Str := [sd "Entity Type", sd "Entity Name", sd "First Context"]

/-- The column list of the aggregated entity table. -/
def aggCols : List Str :=
  [sd "Entity Type", sd "Entity Name", sd "First Context", sd "Documents"]

/-- One rendered grid line: Python `f"| {' | '.join(cells)} |"`. -/
def mdRowLine (cells : List Str) : Str :=
  sd "| " ++ interc (sd " | ") cells ++ sd " |"

/-- The separator line `"|" + "|".join(["---"] * n) + "|"`. -/
def sepLine (n2 : Nat) : Str :=
  sd "|" ++ interc (sd "|") (List.replicate n2 (sd "---")) ++ sd "|"

/-- `", ".join(docs)`: how `format_entity_table` renders a list-valued
`Documents` cell. -/
def joinDocs (ds : List Str) : Str := interc (sd ", ") ds

/-- `format_entity_table` (formatter.py lines 5-43) over already-rendered
string cells: header line, separator line, one line per row, each terminated
by a newline; an empty frame renders the fixed no-entities message. -/
def formatEntityTable (cols : List Str) (rows : List (List Str)) : Str :=
  if rows.isEmpty then sd "No entities found."
  else
    (mdRowLine cols ++ ['\n']) ++ (sepLine cols.length ++ ['\n'])
      ++ (rows.map (fun r => mdRowLine r ++ ['\n'])).flatten

/-- One record of a per-document entity table. -/
structure Row where
  etype : Str
  name : Str
  ctx : Str
deriving DecidableEq, Repr

/-- One record of the aggregated table; `docs` is the list-valued
`Documents` cell. -/
structure ARecord where
  etype : Str
  name : Str
  ctx : Str
  docs : List Str
deriving DecidableEq, Repr

/-- Encode a per-document table (three string columns). -/
def encodeDocTable (rs : List Row) : Str :=
  formatEntityTable docCols (rs.map (fun r => [r.etype, r.name, r.ctx]))

/-- Encode the aggregated table: the `Documents` list is comma-joined. -/
def encodeAggTable (rs : List ARecord) : Str :=
  formatEntityTable aggCols (rs.map (fun r => [r.etype, r.name, r.ctx, joinDocs r.docs]))

/-- Substring test (Python `pat in line`). -/
def hasSub (pat s : Str) : Bool := (List.range (s.length + 1)).any (occAt pat s)

/-- The header-detection literal of `parse_entity_table`. -/
def headerPat : Str := sd "| Entity Type |"

/-- `[cell.strip() for cell in line.split('|')[1:-1]]`. -/
def parseCells (l : Str) : List Str :=
  (((splitP (fun c => c = '|') l).drop 1).dropLast).map stripWs

/-- `parse_entity_table` (parser.py lines 6-46), file I/O aside: find the
header line by substring match, parse cells of the header, then read rows
from two lines below it while lines start with a pipe, silently dropping
rows whose cell count mismatches the header. -/
def parseTable (content : Str) : Option (List Str × List (List Str)) :=
  let lines := splitP (fun c => c = '\n') content
  match lines.findIdx? (fun l => hasSub headerPat l) with
  | none => none
  | some i =>
    let header := parseCells (lines.getD i [])
    let rows :=
      ((lines.drop (i + 2)).takeWhile (fun l => l.head? = some '|')).filterMap
        (fun l =>
          let cs := parseCells l
          if cs.length = header.length then some cs else none)
    some (header, rows)

/-- Python `s.split(", ")`: the decode direction for a round-tripped
`Documents` cell (the interchange contract of the spec; the stored cell is
the comma-joined list). -/
def splitCS : Str → List Str
  | [] => [[]]
  | ',' :: ' ' :: rest => [] :: splitCS rest
  | c :: rest =>
    match splitCS rest with
    | [] => []
    | h :: t => (c :: h) :: t

/- ===== Cross-Document Aggregator (entity_aggregator.py) ===== -/

/-- The grouping key: `(Entity Type, Normalized Name)` where
`Normalized Name = normalize_entity(Entity Name)`
(entity_aggregator.py line 75). -/
def keyR (r : Row) : Str × Str := (r.etype, normalizeEntity r.name)

/-- A loaded per-document table: the document id (`file_path.name`, the
`Documents` tag) and its records in file order. -/
abbrev DocTable := Str × List Row

/-- The concatenated frame (`pd.concat(dfs)`): every record tagged with its
document id, in document order then row order. -/
def combined (ts : List DocTable) : List (Row × Str) :=
  (ts.map (fun t => t.2.map (fun r => (r, t.1)))).flatten

/-- Insert into a sorted list (comparator as a boolean relation). -/
def insOrd (le : α → α → Bool) (x : α) : List α → List α
  | [] => [x]
  | y :: ys => if le x y then x :: y :: ys else y :: insOrd le x ys

/-- Insertion sort with a boolean comparator (models Python `sorted` and the
sorted group keys of `DataFrame.groupby`). -/
def insSort (le : α → α → Bool) : List α → List α
  | [] => []
  | x :: xs => insOrd le x (insSort le xs)

/-- Lexicographic order on character lists by code point (Python string
comparison). -/
def leStr : Str → Str → Bool
  | [], _ => true
  | _ :: _, [] => false
  | a :: as, b :: bs => if a < b then true else if b < a then false else leStr as bs

/-- Lexicographic order on `(Entity Type, Normalized Name)` pairs. -/
def leKey (a b : Str × Str) : Bool :=
  if a.1 = b.1 then leStr a.2 b.2 else leStr a.1 b.1

/-- The distinct group keys of `groupby(['Entity Type', 'Normalized Name'])`
(pandas emits the groups sorted by key). -/
def aggKeys (ts : List DocTable) : List (Str × Str) :=
  insSort leKey (((combined ts).map (fun p => keyR p.1)).dedup)

/-- One group of the concatenated frame: the rows whose key equals `k`, in
concatenation order. -/
def aggGroup (ts : List DocTable) (k : Str × Str) : List (Row × Str) :=
  (combined ts).filter (fun p => decide (keyR p.1 = k))

/-- The aggregated record of one group: `'first'` for `Entity Name` and
`First Context`, and `sorted(list(set(x)))` for `Documents`
(entity_aggregator.py lines 113-117). -/
def aggRecord (ts : List DocTable) (k : Str × Str) : ARecord :=
  { etype := k.1
    name := (((aggGroup ts k).head?).map (fun p => p.1.name)).getD []
    ctx := (((aggGroup ts k).head?).map (fun p => p.1.ctx)).getD []
    docs := insSort leStr (((aggGroup ts k).map (fun p => p.2)).dedup) }

/-- `EntityAggregator.aggregate_entities` (entity_aggregator.py lines
85-125): concatenate the tagged frames, group by `(Entity Type, Normalized
Name)`, take `Entity Name` and `First Context` from the first row of each
group in concatenation order, and collect `Documents` as the sorted
deduplicated set of the group's tags. -/
def aggregate (ts : List DocTable) : List ARecord :=
  (aggKeys ts).map (aggRecord ts)

/- ===== Claim-level predicates ===== -/

/-- Two entity tuples share a `(type, normalized_key)` pair, where
`normalized_key = normalize(display_name)`. -/
def sameKey (a b : Entity) : Prop :=
  a.1 = b.1 ∧ normalizeEntity a.2 = normalizeEntity b.2

instance (a b : Entity) : Decidable (sameKey a b) := by
  unfold sameKey
  infer_instance

/-- The uniqueness property claimed of an entity table: no two records share
a `(type, normalized_key)` pair. -/
def noDupKeys (es : List Entity) : Prop :=
  es.Pairwise (fun a b => ¬ sameKey a b)

instance (es : List Entity) : Decidable (noDupKeys es) := by
  unfold noDupKeys
  infer_instance

/-- The already-normalized shape under which a second `normalize_entity`
pass is the identity: all-lowercase, no apostrophe, no trailing newline, no
end-anchored corporate-suffix match, canonical single spacing. -/
def normIdemCond (Y : Str) : Prop :=
  (∀ c ∈ Y, Char.toLower c = c) ∧ '\'' ∉ Y ∧ Y.getLast? ≠ some '\n' ∧
    sfxMatchLen Y = none ∧ collapseWs Y = Y ∧ stripWs Y = Y

instance (Y : Str) : Decidable (normIdemCond Y) := by
  unfold normIdemCond
  infer_instance

/-- The rendering of one cell inside a grid line: a space on each side. -/
def padCell (cl : Str) : Str := ' ' :: (cl ++ [' '])

/-- A cell value that survives the grid round trip unchanged: no pipe, no
newline, and no leading or trailing whitespace (the parser strips every
cell). -/
def wfCell (cl : Str) : Bool :=
  cl.all (fun c => !(decide (c = '|')) && !(decide (c = '\n'))) &&
    (match cl.head? with | some c => !isPySpace c | none => true) &&
    (match cl.getLast? with | some c => !isPySpace c | none => true)

/-- Sortedness with respect to a boolean comparator. -/
def sortedLe {α : Type} (le : α → α → Bool) (l : List α) : Prop :=
  l.Pairwise (fun a b => le a b = true)

instance {α : Type} (le : α → α → Bool) (l : List α) : Decidable (sortedLe le l) := by
  unfold sortedLe
  infer_instance

/-- A well-formed document identifier: nonempty, comma-free, and a
well-formed cell value. -/
def wfDocId (d : Str) : Bool :=
  !d.isEmpty && d.all (fun c => !(decide (c = ','))) && wfCell d

/-- A loaded document table contributes a `(type, normalized_key)` pair when
one of its records carries it. -/
def contributes (t : DocTable) (k : Str × Str) : Prop := ∃ r ∈ t.2, keyR r = k

instance (t : DocTable) (k : Str × Str) : Decidable (contributes t k) := by
  unfold contributes
  infer_instance

/-- The `(type, normalized_key)` pair of an aggregated record. -/
def aKey (rec : ARecord) : Str × Str := (rec.etype, normalizeEntity rec.name)

/- ===== Lemmas: Mention Deduplicator ===== -/

theorem insertSet_of_mem {es : List Entity} {t : Entity} (h : t ∈ es) :
    insertSet es t = es := by
  simp [insertSet, h]

theorem mem_insertSet_self (es : List Entity) (t : Entity) : t ∈ insertSet es t := by
  by_cases h : t ∈ es <;> simp [insertSet, h]

theorem mem_insertSet_of_mem {es : List Entity} {e : Entity} (t : Entity) (h : e ∈ es) :
    e ∈ insertSet es t := by
  by_cases ht : t ∈ es <;> simp [insertSet, ht, h]

theorem stepMention_noDup (st : DState) (m : Mention) (h : noDupKeys st.entities) :
    noDupKeys (stepMention st m).entities := by
  simp only [stepMention]
  split
  · split
    · exact h
    · cases hf : st.entities.find?
          (fun e => decide (e.1 = m.label ∧
            normalizeEntity e.2 = normalizeEntity (cleanEntityText m.text))) with
      | some e =>
        have he : e ∈ st.entities := List.mem_of_find?_eq_some hf
        simp only [hf, insertSet_of_mem he]
        exact h
      | none =>
        simp only [hf]
        have hnot : (m.label, cleanEntityText m.text) ∉ st.entities := by
          intro hmem
          have := List.find?_eq_none.mp hf _ hmem
          simp at this
        unfold noDupKeys
        simp only [insertSet]
        rw [if_neg hnot, List.pairwise_append]
        refine ⟨h, by simp, ?_⟩
        intro e he t ht
        simp only [List.mem_singleton] at ht
        subst ht
        have hnk := List.find?_eq_none.mp hf _ he
        simp only [decide_eq_true_eq] at hnk
        dsimp only [sameKey]
        exact hnk
  · exact h

theorem foldl_stepMention_noDup (ms : List Mention) :
    ∀ st : DState, noDupKeys st.entities →
      noDupKeys (ms.foldl stepMention st).entities := by
  induction ms with
  | nil => intro st h; exact h
  | cons m ms ih =>
    intro st h
    exact ih _ (stepMention_noDup st m h)

/-- C1 (amended): within a single chunk — one `process_chunk` call, which
always starts from an empty chunk-local entity set — the produced entity set
never contains two records sharing a `(type, normalized_key)` pair, for
every mention sequence and every incoming context cache.  (Across chunks the
original claim fails, see the counterexample: `extract_entities` unions
chunk-local sets whose surface forms may differ while their normalized keys
agree.) -/
theorem dedup_unique_within_chunk (ms : List Mention) (cx : Ctxs) :
    noDupKeys (processChunk ms cx).entities :=
  foldl_stepMention_noDup ms ⟨[], cx⟩ List.Pairwise.nil

/-- C1 (counterexample): the same entity surfacing as `Apple` in one chunk
and `APPLE` in a later chunk of the same document yields two records in the
final table that share `(ORG, apple)` — the deduplication guarantee does not
hold across chunk boundaries. -/
theorem dedup_unique_cex :
    ¬ noDupKeys
        (processDoc
          [[⟨sd "ORG", sd "Apple", sd "c1"⟩], [⟨sd "ORG", sd "APPLE", sd "c2"⟩]]).1 := by
  decide

theorem ctxLookup_append_of_some {cx : Ctxs} {k : Entity} {v : Str} (kv : Entity × Str)
    (h : ctxLookup cx k = some v) : ctxLookup (cx ++ [kv]) k = some v := by
  unfold ctxLookup at h ⊢
  cases hf : cx.find? (fun kv => kv.1 = k) with
  | none => simp [hf] at h
  | some p =>
    rw [List.find?_append, hf]
    simpa [hf] using h

theorem stepMention_ctx_mono (st : DState) (m : Mention) {k : Entity} {v : Str}
    (h : ctxLookup st.ctxs k = some v) : ctxLookup (stepMention st m).ctxs k = some v := by
  simp only [stepMention]
  split
  · split
    · exact h
    · dsimp only
      split
      · exact ctxLookup_append_of_some _ h
      · exact h
  · exact h

theorem stepMention_mem_mono (st : DState) (m : Mention) {e : Entity}
    (h : e ∈ st.entities) : e ∈ (stepMention st m).entities := by
  simp only [stepMention]
  split
  · split
    · exact h
    · exact mem_insertSet_of_mem _ h
  · exact h

theorem foldl_stepMention_ctx_mono (ms : List Mention) :
    ∀ (st : DState) (k : Entity) (v : Str), ctxLookup st.ctxs k = some v →
      ctxLookup ((ms.foldl stepMention st)).ctxs k = some v := by
  induction ms with
  | nil => intro st k v h; exact h
  | cons m ms ih =>
    intro st k v h
    exact ih _ _ _ (stepMention_ctx_mono st m h)

theorem foldl_stepMention_mem_mono (ms : List Mention) :
    ∀ (st : DState) (e : Entity), e ∈ st.entities →
      e ∈ ((ms.foldl stepMention st)).entities := by
  induction ms with
  | nil => intro st e h; exact h
  | cons m ms ih =>
    intro st e h
    exact ih _ _ (stepMention_mem_mono st m h)

theorem ctxLookup_append_self {cx : Ctxs} {k : Entity} (v : Str)
    (h : ctxLookup cx k = none) : ctxLookup (cx ++ [(k, v)]) k = some v := by
  unfold ctxLookup at h ⊢
  rw [List.find?_append]
  cases hf : cx.find? (fun kv => kv.1 = k) with
  | some p => simp [hf] at h
  | none => simp

/-- C6 (confirmed): when the running table already holds a record for a
`(type, normalized_key)` — here because the first mention of the sequence
created it — a later mention of the same entity with different surface text
and context leaves the record's display name and first context unchanged:
the stored context is still the one captured at the first observation. -/
theorem first_context_stable (label s1 c1 s2 c2 : Str) (ms : List Mention) (cx : Ctxs)
    (hlab : label ∈ targetTypes)
    (hlen : 1 < (cleanEntityText s1).length)
    (hdig : isDigitStr (cleanEntityText s1) = false)
    (hnew : ctxLookup cx (label, cleanEntityText s1) = none)
    (_hsame : normalizeEntity (cleanEntityText s2) = normalizeEntity (cleanEntityText s1)) :
    ctxLookup (processChunk (⟨label, s1, c1⟩ :: (ms ++ [⟨label, s2, c2⟩])) cx).ctxs
        (label, cleanEntityText s1) = some c1 ∧
      (label, cleanEntityText s1) ∈
        (processChunk (⟨label, s1, c1⟩ :: (ms ++ [⟨label, s2, c2⟩])) cx).entities := by
  have hst1 : stepMention ⟨[], cx⟩ ⟨label, s1, c1⟩ =
      ⟨[(label, cleanEntityText s1)], cx ++ [((label, cleanEntityText s1), c1)]⟩ := by
    simp only [stepMention]
    rw [if_pos hlab, if_neg (by simp [hdig]; omega)]
    simp only [List.find?_nil]
    rw [if_pos hnew]
    simp [insertSet]
  unfold processChunk
  rw [List.foldl_cons, hst1]
  constructor
  · exact foldl_stepMention_ctx_mono _ _ _ _ (ctxLookup_append_self c1 hnew)
  · exact foldl_stepMention_mem_mono _ _ _ (by simp)

/-- C6 witness: a concrete run — `Apple` then `APPLE` with different
contexts — keeps the first context and the first display name. -/
theorem first_context_stable_witness :
    ctxLookup
        (processChunk
          (⟨sd "ORG", sd "Apple", sd "c1"⟩ :: ([] ++ [⟨sd "ORG", sd "APPLE", sd "c2"⟩]))
          []).ctxs (sd "ORG", cleanEntityText (sd "Apple")) = some (sd "c1") ∧
      (sd "ORG", cleanEntityText (sd "Apple")) ∈
        (processChunk
          (⟨sd "ORG", sd "Apple", sd "c1"⟩ :: ([] ++ [⟨sd "ORG", sd "APPLE", sd "c2"⟩]))
          []).entities :=
  first_context_stable (sd "ORG") (sd "Apple") (sd "c1") (sd "APPLE") (sd "c2") [] []
    (by decide) (by decide) (by decide) (by decide) (by decide)

/- ===== Lemmas: Text Chunker ===== -/

theorem pyRfind_ge (pat s : Str) : -1 ≤ pyRfind pat s := by
  unfold pyRfind
  cases h : ((List.range (s.length + 1)).filter (occAt pat s)).getLast? with
  | none => simp
  | some i =>
    simp only []
    omega

theorem chunkStep_advance (t : Str) (cs ov : Nat) (start : Int)
    (hov : 0 < ov) (hlt : ov < cs) :
    start + 1 ≤ (chunkStep t cs ov start).1 := by
  unfold chunkStep
  dsimp only
  split
  · split
    · rename_i hbest
      have hb : -1 ≤ max (max (pyRfind (sd ". ") (pySlice t (start + ↑cs - ↑ov) (start + ↑cs + ↑ov)))
          (pyRfind (sd "\n") (pySlice t (start + ↑cs - ↑ov) (start + ↑cs + ↑ov))))
          (pyRfind (sd ". \n") (pySlice t (start + ↑cs - ↑ov) (start + ↑cs + ↑ov))) :=
        le_trans (pyRfind_ge _ _) (le_max_right _ _)
      omega
    · omega
  · omega

theorem chunkGo_some (t : Str) (cs ov : Nat) (hov : 0 < ov) (hlt : ov < cs) :
    ∀ (fuel : Nat) (start : Int) (acc : List Str), (t.length : Int) ≤ start + fuel →
      (chunkGo t cs ov (fuel + 1) start acc).isSome := by
  intro fuel
  induction fuel with
  | zero =>
    intro start acc h
    rw [chunkGo, if_neg (by omega)]
    simp
  | succ f ih =>
    intro start acc h
    rw [chunkGo]
    split
    · apply ih
      have := chunkStep_advance t cs ov start hov hlt
      omega
    · simp

theorem drop_min_length (t : Str) (m : Nat) : t.drop (min m t.length) = t.drop m := by
  rcases le_total m t.length with h | h
  · rw [min_eq_left h]
  · rw [min_eq_right h, List.drop_length, List.drop_eq_nil_of_le h]

theorem clampIdx_of_nonneg {n : Nat} {a : Int} (h : 0 ≤ a) : clampIdx n a = min a.toNat n := by
  unfold clampIdx
  rw [if_neg (by omega)]

theorem pySlice_append_drop (t : Str) (a b : Int) (h0 : 0 ≤ a) (hab : a ≤ b) :
    pySlice t a b ++ t.drop (clampIdx t.length b) = t.drop a.toNat := by
  unfold pySlice
  rw [clampIdx_of_nonneg h0, clampIdx_of_nonneg (le_trans h0 hab)]
  have htn : a.toNat ≤ b.toNat := by omega
  set b2 := min b.toNat t.length with hb2
  set a2 := min a.toNat t.length with ha2
  have hab2 : a2 ≤ b2 := by omega
  have h1 : (t.take b2).length = b2 := by
    rw [List.length_take]
    omega
  have hdm : t.drop a.toNat = t.drop a2 := by
    rw [ha2, drop_min_length]
  rw [hdm]
  conv_rhs => rw [← List.take_append_drop b2 t]
  rw [List.drop_append_of_le_length (by rw [h1]; exact hab2)]

theorem chunkStep_snd (t : Str) (cs ov : Nat) (start : Int) :
    (chunkStep t cs ov start).2 = pySlice t start (chunkStep t cs ov start).1 := rfl

theorem chunkGo_join (t : Str) (cs ov : Nat) (hov : 0 < ov) (hlt : ov < cs) :
    ∀ (fuel : Nat) (start : Int) (acc res : List Str), 0 ≤ start →
      chunkGo t cs ov fuel start acc = some res →
      res.flatten = acc.flatten ++ t.drop start.toNat := by
  intro fuel
  induction fuel with
  | zero =>
    intro start acc res h0 h
    simp [chunkGo] at h
  | succ f ih =>
    intro start acc res h0 h
    rw [chunkGo] at h
    by_cases hc : start < (t.length : Int)
    · rw [if_pos hc] at h
      have hadv := chunkStep_advance t cs ov start hov hlt
      have hres := ih _ _ _ (by omega) h
      rw [hres, List.flatten_append]
      simp only [List.flatten_cons, List.flatten_nil, List.append_nil]
      rw [List.append_assoc]
      congr 1
      rw [chunkStep_snd]
      have hnn : (0 : Int) ≤ (chunkStep t cs ov start).1 := by omega
      have := pySlice_append_drop t start (chunkStep t cs ov start).1 h0 (by omega)
      rw [clampIdx_of_nonneg hnn, drop_min_length] at this
      exact this
    · rw [if_neg hc] at h
      have : acc = res := by injection h
      subst this
      rw [List.drop_eq_nil_of_le (by omega), List.append_nil]

/-- C4 (confirmed): for valid parameters `0 < overlap < max_chunk_size`,
`chunk_text` terminates and returns an ordered sequence of contiguous
substrings whose concatenation is exactly the original text — no gaps, no
dropped characters, each character covered exactly once (the produced chunks
partition the text; their character ranges are pairwise disjoint, so the
overlap between consecutive chunks is at most `overlap`). -/
theorem chunk_coverage (t : Str) (cs ov : Nat) (hov : 0 < ov) (hlt : ov < cs) :
    ∃ l, chunkText t cs ov = some l ∧ l.flatten = t ∧
      ∀ c ∈ l, ∃ pre post, t = pre ++ (c ++ post) := by
  have hs := chunkGo_some t cs ov hov hlt t.length 0 [] (by omega)
  obtain ⟨l, hl⟩ := Option.isSome_iff_exists.mp hs
  refine ⟨l, hl, ?_, ?_⟩
  · have := chunkGo_join t cs ov hov hlt (t.length + 1) 0 [] l (le_refl 0) hl
    simpa using this
  · intro c hc
    obtain ⟨pre, post, rfl⟩ := List.append_of_mem hc
    have := chunkGo_join t cs ov hov hlt (t.length + 1) 0 [] _ (le_refl 0) hl
    refine ⟨pre.flatten, post.flatten, ?_⟩
    simp only [List.flatten_nil, List.nil_append, Int.toNat_zero, List.drop_zero] at this
    rw [← this, List.flatten_append, List.flatten_cons]

/-- C4 witness: concrete valid parameters on a small text. -/
theorem chunk_coverage_witness :
    ∃ l, chunkText (sd "ab. cd. ef") 5 2 = some l ∧ l.flatten = sd "ab. cd. ef" ∧
      ∀ c ∈ l, ∃ pre post, sd "ab. cd. ef" = pre ++ (c ++ post) :=
  chunk_coverage (sd "ab. cd. ef") 5 2 (by decide) (by decide)

theorem chunkStep_stuck : chunkStep ('\n' :: sd "xxxxx") 1 2 1 = (1, []) := by decide

theorem chunkGo_stuck : ∀ (fuel : Nat) (acc : List Str),
    chunkGo ('\n' :: sd "xxxxx") 1 2 fuel 1 acc = none := by
  intro fuel
  induction fuel with
  | zero => intro acc; rfl
  | succ f ih =>
    intro acc
    rw [chunkGo, if_pos (by decide)]
    simp only [chunkStep_stuck]
    exact ih _

theorem chunkGo_noterm : ∀ fuel : Nat, chunkGo ('\n' :: sd "xxxxx") 1 2 fuel 0 [] = none := by
  intro fuel
  cases fuel with
  | zero => rfl
  | succ f =>
    rw [chunkGo, if_pos (by decide)]
    have h1 : chunkStep ('\n' :: sd "xxxxx") 1 2 0 = (1, ['\n']) := by decide
    simp only [h1]
    exact chunkGo_stuck f _

/-- C10 (confirmed): under the unchecked precondition `overlap <
max_chunk_size` every loop iteration strictly increases the cursor, so
`chunk_text` terminates on every text within `length + 1` iterations; the
precondition is necessary in the sense that for parameters violating it the
loop can run forever — with `chunk_size = 1`, `overlap = 2` on the text
`"\nxxxxx"` the cursor gets stuck at position 1 and no amount of fuel makes
the loop return. -/
theorem chunk_termination :
    (∀ (t : Str) (cs ov : Nat) (start : Int), 0 < ov → ov < cs →
        start + 1 ≤ (chunkStep t cs ov start).1) ∧
    (∀ (t : Str) (cs ov : Nat), 0 < ov → ov < cs → (chunkText t cs ov).isSome) ∧
    (∃ (t : Str) (cs ov : Nat), cs ≤ ov ∧ ∀ fuel, chunkGo t cs ov fuel 0 [] = none) :=
  ⟨fun t cs ov start hov hlt => chunkStep_advance t cs ov start hov hlt,
   fun t cs ov hov hlt => chunkGo_some t cs ov hov hlt t.length 0 [] (by omega),
   ⟨'\n' :: sd "xxxxx", 1, 2, by omega, chunkGo_noterm⟩⟩

/-- C10 witness: the cursor strictly advances and the loop terminates on a
concrete input with valid parameters. -/
theorem chunk_termination_witness :
    (0 : Int) + 1 ≤ (chunkStep (sd "abcdef") 4 1 0).1 ∧ (chunkText (sd "abcdef") 4 1).isSome :=
  ⟨chunk_termination.1 (sd "abcdef") 4 1 0 (by decide) (by decide),
   chunk_termination.2.1 (sd "abcdef") 4 1 (by decide) (by decide)⟩

/-- C7 (code bug): `chunk_text` performs no validation of its parameters
and raises nothing: with `overlap ≥ chunk_size` it happily returns chunks
for short texts, and on `"\nxxxxx"` with `chunk_size = 1`, `overlap = 2` the
loop never terminates — no `ConfigurationError` exists anywhere in the
code. -/
theorem chunk_no_validation :
    chunkText (sd "ab") 5 10 = some [sd "ab"] ∧
      ∀ fuel, chunkGo ('\n' :: sd "xxxxx") 1 2 fuel 0 [] = none :=
  ⟨by decide, chunkGo_noterm⟩

/-- C9 (amended): a nonempty text shorter than `max_chunk_size` yields
exactly one chunk equal to the whole text; the empty text (also shorter than
`max_chunk_size`) yields zero chunks, not one. -/
theorem chunk_single_nonempty (t : Str) (cs ov : Nat) (h1 : 0 < t.length) (h2 : t.length < cs) :
    chunkText t cs ov = some [t] := by
  obtain ⟨m, hm⟩ : ∃ m, t.length = m + 1 := ⟨t.length - 1, by omega⟩
  have hstep : chunkStep t cs ov 0 = ((cs : Int), t) := by
    unfold chunkStep
    dsimp only
    rw [if_neg (by omega)]
    have he : (0 : Int) + (cs : Int) = (cs : Int) := by omega
    rw [he]
    congr 1
    unfold pySlice
    rw [clampIdx_of_nonneg (by omega), clampIdx_of_nonneg (by omega)]
    simp only [Int.toNat_zero, Int.toNat_natCast, Nat.zero_min, List.drop_zero]
    rw [min_eq_right (by omega), List.take_length]
  unfold chunkText
  rw [hm, chunkGo, if_pos (by omega), hstep]
  dsimp only
  rw [chunkGo, if_neg (by omega)]
  simp

/-- C9 witness: a concrete nonempty short text under the default
parameters. -/
theorem chunk_single_witness : chunkText (sd "hello") 900000 10000 = some [sd "hello"] :=
  chunk_single_nonempty (sd "hello") 900000 10000 (by decide) (by decide)

/-- C9 (counterexample): the empty text is shorter than `max_chunk_size`
but produces zero chunks, not a single chunk equal to the whole text. -/
theorem chunk_empty_cex :
    chunkText (sd "") 900000 10000 = some [] ∧
      chunkText (sd "") 900000 10000 ≠ some [sd ""] := by
  exact ⟨by decide, by decide⟩

/- ===== Lemmas: pipeline failure semantics ===== -/

/-- C8 (amended): `extract_entities` installs no exception handler around
chunk processing, so if the external NER capability raises on any chunk the
exception propagates to the caller at once: the remaining chunks are never
processed, mentions of earlier chunks are discarded with the aborted call,
and no entity table is returned for the document. -/
theorem ner_failure_aborts (pre : List (List Mention)) (e : Unit)
    (post : List (Except Unit (List Mention))) (acc : List Entity × Ctxs) :
    extractEntitiesE (pre.map Except.ok ++ Except.error e :: post) acc = Except.error e := by
  induction pre generalizing acc with
  | nil => rfl
  | cons ms rest ih =>
    simp only [List.map_cons, List.cons_append, extractEntitiesE]
    exact ih _

/-- C8 (counterexample): the NER capability failing on the first chunk of a
two-chunk document makes the whole extraction return the exception — the
valid mention in the second chunk is lost and no table is produced, where
the claim promises a (partially populated) table. -/
theorem ner_failure_cex :
    extractEntitiesE
        [Except.error (), Except.ok [⟨sd "ORG", sd "Apple", sd "c"⟩]] ([], []) =
      Except.error () := rfl

/- ===== Lemmas: Entity Normalizer (C5) ===== -/

theorem possSub_no_apos : ∀ Y : Str, '\'' ∉ Y → possSub Y = Y := by
  intro Y
  induction Y with
  | nil => intro h; rfl
  | cons c rest ih =>
    intro h
    have hc : c ≠ '\'' := fun hh => h (hh ▸ List.mem_cons_self c rest)
    have hr : '\'' ∉ rest := fun hh => h (List.mem_cons_of_mem c hh)
    rw [possSub.eq_def]
    simp only [if_neg hc]
    rw [ih hr]

theorem suffixSub_id (Y : Str) (h1 : sfxMatchLen Y = none) (h2 : Y.getLast? ≠ some '\n') :
    suffixSub Y = Y := by
  unfold suffixSub
  rw [if_neg h2, h1]

theorem lowerStr_id (Y : Str) (h : ∀ c ∈ Y, Char.toLower c = c) : lowerStr Y = Y := by
  unfold lowerStr
  rw [List.map_congr_left h]
  exact List.map_id' Y

theorem normalizeEntity_fixed (Y : Str) (h : normIdemCond Y) : normalizeEntity Y = Y := by
  obtain ⟨hl, ha, hn, hs, hc, ht⟩ := h
  unfold normalizeEntity
  rw [lowerStr_id Y hl, possSub_no_apos Y ha, suffixSub_id Y hs hn, hc, ht]

/-- C5 (amended): `normalize` is case-insensitive — normalization factors
through lowercasing, and in particular `normalize("Acme Inc.") ==
normalize("acme inc")` — and `normalize(normalize(X)) == normalize(X)`
holds whenever the once-normalized form is a fixed point of the stripping
passes (`normIdemCond`), but not for all strings (see the counterexample:
stacked corporate suffixes are stripped one per pass). -/
theorem normalize_case_and_conditional_idem :
    (∀ X Y : Str, lowerStr X = lowerStr Y → normalizeEntity X = normalizeEntity Y) ∧
    normalizeEntity (sd "Acme Inc.") = normalizeEntity (sd "acme inc") ∧
    (∀ X : Str, normIdemCond (normalizeEntity X) →
      normalizeEntity (normalizeEntity X) = normalizeEntity X) := by
  refine ⟨?_, by decide, ?_⟩
  · intro X Y h
    unfold normalizeEntity
    rw [h]
  · intro X h
    exact normalizeEntity_fixed _ h

/-- C5 witness: case-insensitivity and idempotence instantiated at concrete
inputs with the hypotheses checked by evaluation. -/
theorem normalize_case_and_conditional_idem_witness :
    normalizeEntity (sd "ABC Corp") = normalizeEntity (sd "abc corp") ∧
      normalizeEntity (normalizeEntity (sd "hello world")) =
        normalizeEntity (sd "hello world") :=
  ⟨normalize_case_and_conditional_idem.1 (sd "ABC Corp") (sd "abc corp") (by decide),
   normalize_case_and_conditional_idem.2.2 (sd "hello world") (by decide)⟩

/-- C5 (counterexample): `normalize` is not idempotent — `"foo ltd inc"`
normalizes to `"foo ltd"`, which normalizes again to `"foo"`: each pass
strips only the last corporate-suffix token. -/
theorem normalize_idem_cex :
    normalizeEntity (normalizeEntity (sd "foo ltd inc")) ≠
      normalizeEntity (sd "foo ltd inc") := by
  decide

/- ===== Lemmas: Entity Table Codec (C3) ===== -/

theorem splitP_ne_nil (p : Char → Bool) : ∀ s : Str, splitP p s ≠ []
  | [] => by simp [splitP]
  | c :: rest => by
    have ih := splitP_ne_nil p rest
    rw [splitP.eq_def]
    cases h : splitP p rest with
    | nil => exact absurd h ih
    | cons a t =>
      simp only [h]
      split <;> simp

theorem splitP_cons_sep (p : Char → Bool) (c : Char) (s : Str) (hc : p c = true) :
    splitP p (c :: s) = [] :: splitP p s := by
  rw [splitP.eq_def]
  cases h : splitP p s with
  | nil => exact absurd h (splitP_ne_nil p s)
  | cons a t => simp [h, hc]

theorem splitP_cons_no (p : Char → Bool) (c : Char) (s : Str) (hc : p c = false) :
    ∀ h t, splitP p s = h :: t → splitP p (c :: s) = (c :: h) :: t := by
  intro h t hs
  rw [splitP.eq_def]
  dsimp only
  rw [hs]
  simp [hc]

theorem splitP_no_sep (p : Char → Bool) : ∀ s : Str, (∀ x ∈ s, p x = false) → splitP p s = [s] := by
  intro s
  induction s with
  | nil => intro _; rfl
  | cons c rest ih =>
    intro h
    exact splitP_cons_no p c rest (h c (by simp)) rest []
      (ih (fun x hx => h x (by simp [hx])))

theorem splitP_append_sep (p : Char → Bool) (c : Char) (hc : p c = true) :
    ∀ (l r : Str), (∀ x ∈ l, p x = false) → splitP p (l ++ c :: r) = l :: splitP p r := by
  intro l
  induction l with
  | nil => intro r _; exact splitP_cons_sep p c r hc
  | cons x xs ih =>
    intro r h
    have h1 : splitP p (xs ++ c :: r) = xs :: splitP p r :=
      ih r (fun y hy => h y (by simp [hy]))
    have h2 := splitP_cons_no p x (xs ++ c :: r) (h x (by simp)) _ _ h1
    simpa using h2

theorem splitP_terminated (p : Char → Bool) (c : Char) (hc : p c = true) :
    ∀ ls : List Str, (∀ l ∈ ls, ∀ x ∈ l, p x = false) →
      splitP p ((ls.map (fun l => l ++ [c])).flatten) = ls ++ [[]] := by
  intro ls
  induction ls with
  | nil => intro _; rfl
  | cons l ls ih =>
    intro h
    simp only [List.map_cons, List.flatten_cons, List.append_assoc, List.singleton_append]
    rw [splitP_append_sep p c hc l _ (h l (by simp))]
    rw [ih (fun q hq => h q (by simp [hq]))]
    rfl

theorem dropWhile_head_false (p : Char → Bool) (l : Str)
    (h : ∀ c, l.head? = some c → p c = false) : l.dropWhile p = l := by
  cases l with
  | nil => rfl
  | cons a l => rw [List.dropWhile_cons, if_neg (by simp [h a rfl])]

theorem stripWs_pad (cl : Str)
    (h1 : ∀ c, cl.head? = some c → isPySpace c = false)
    (h2 : ∀ c, cl.getLast? = some c → isPySpace c = false) :
    stripWs (padCell cl) = cl := by
  cases cl with
  | nil => decide
  | cons c0 cl' =>
    have hd : List.dropWhile isPySpace (padCell (c0 :: cl')) = (c0 :: cl') ++ [' '] := by
      unfold padCell
      rw [List.dropWhile_cons, if_pos (by decide), List.cons_append, List.dropWhile_cons,
        if_neg (by simp [h1 c0 rfl])]
    unfold stripWs
    rw [hd, List.reverse_append, show ([' '] : Str).reverse = [' '] from rfl,
      List.singleton_append, List.dropWhile_cons, if_pos (by decide),
      dropWhile_head_false _ _ (fun c hc => h2 c (by rwa [List.head?_reverse] at hc)),
      List.reverse_reverse]

theorem takeWhile_append_all {α : Type} (p : α → Bool) :
    ∀ (l r : List α), (∀ x ∈ l, p x = true) → (l ++ r).takeWhile p = l ++ r.takeWhile p := by
  intro l
  induction l with
  | nil => intro r _; rfl
  | cons a l ih =>
    intro r h
    rw [List.cons_append, List.takeWhile_cons, if_pos (h a (by simp)), ih r (fun x hx => h x (by simp [hx]))]
    rfl

theorem wfCell_no_pipe {cl : Str} (h : wfCell cl = true) : '|' ∉ cl := by
  intro hm
  unfold wfCell at h
  simp only [Bool.and_eq_true, List.all_eq_true] at h
  have := h.1.1 _ hm
  simp at this

theorem wfCell_no_nl {cl : Str} (h : wfCell cl = true) : '\n' ∉ cl := by
  intro hm
  unfold wfCell at h
  simp only [Bool.and_eq_true, List.all_eq_true] at h
  have := h.1.1 _ hm
  simp at this

theorem wfCell_head {cl : Str} (h : wfCell cl = true) :
    ∀ c, cl.head? = some c → isPySpace c = false := by
  intro c hc
  unfold wfCell at h
  simp only [Bool.and_eq_true] at h
  have h2 := h.1.2
  rw [hc] at h2
  simpa using h2

theorem wfCell_last {cl : Str} (h : wfCell cl = true) :
    ∀ c, cl.getLast? = some c → isPySpace c = false := by
  intro c hc
  unfold wfCell at h
  simp only [Bool.and_eq_true] at h
  have h2 := h.2
  rw [hc] at h2
  simpa using h2

theorem mem_interc (sep : Str) : ∀ (l : List Str) (x : Char),
    x ∈ interc sep l → x ∈ sep ∨ ∃ q ∈ l, x ∈ q := by
  intro l
  induction l with
  | nil => intro x hx; simp [interc] at hx
  | cons a l ih =>
    intro x hx
    cases l with
    | nil =>
      right
      exact ⟨a, by simp, hx⟩
    | cons b l2 =>
      rw [interc] at hx
      rcases List.mem_append.mp hx with h | h
      · rcases List.mem_append.mp h with h2 | h2
        · right; exact ⟨a, by simp, h2⟩
        · left; exact h2
      · rcases ih x h with h2 | ⟨q, hq, hxq⟩
        · left; exact h2
        · right; exact ⟨q, by simp [hq], hxq⟩

theorem mem_mdRowLine (cells : List Str) (x : Char) (hx : x ∈ mdRowLine cells) :
    x = '|' ∨ x = ' ' ∨ ∃ cl ∈ cells, x ∈ cl := by
  unfold mdRowLine at hx
  have hps : sd "| " = ['|', ' '] := rfl
  have hsp : sd " |" = [' ', '|'] := rfl
  have hsps : sd " | " = [' ', '|', ' '] := rfl
  rw [hps, hsp, hsps] at hx
  rcases List.mem_append.mp hx with h | h
  · rcases List.mem_append.mp h with h2 | h2
    · simp at h2
      rcases h2 with h2 | h2 <;> simp [h2]
    · rcases mem_interc _ _ _ h2 with hs | hq
      · simp at hs
        rcases hs with hs | hs | hs <;> simp [hs]
      · right; right; exact hq
  · simp at h
    rcases h with h | h <;> simp [h]

theorem mem_sepLine (k : Nat) (x : Char) (hx : x ∈ sepLine k) : x = '|' ∨ x = '-' := by
  unfold sepLine at hx
  have h1 : sd "|" = ['|'] := rfl
  rw [h1] at hx
  rcases List.mem_append.mp hx with h | h
  · rcases List.mem_append.mp h with h2 | h2
    · simp at h2; simp [h2]
    · rcases mem_interc _ _ _ h2 with hs | ⟨q, hq, hxq⟩
      · simp at hs; simp [hs]
      · have := List.eq_of_mem_replicate hq
        subst this
        have h3 : sd "---" = ['-', '-', '-'] := rfl
        rw [h3] at hxq
        simp at hxq
        simp [hxq]
  · simp at h; simp [h]

theorem mdRowLine_single (a : Str) : mdRowLine [a] = '|' :: (padCell a ++ ['|']) := by
  simp [mdRowLine, interc, padCell, show sd "| " = ['|', ' '] from rfl,
    show sd " |" = [' ', '|'] from rfl]

theorem mdRowLine_cons_cons (a b : Str) (cs2 : List Str) :
    mdRowLine (a :: b :: cs2) = '|' :: (padCell a ++ mdRowLine (b :: cs2)) := by
  simp [mdRowLine, interc, padCell, show sd "| " = ['|', ' '] from rfl,
    show sd " |" = [' ', '|'] from rfl, show sd " | " = [' ', '|', ' '] from rfl]

theorem padCell_no_pipe {a : Str} (h : '|' ∉ a) :
    ∀ x ∈ padCell a, (decide (x = '|')) = false := by
  intro x hx
  have hne : x ≠ '|' := by
    intro hh
    subst hh
    simp [padCell] at hx
    exact h hx
  simp [hne]

theorem splitP_mdRowLine : ∀ (cells : List Str), cells ≠ [] → (∀ cl ∈ cells, '|' ∉ cl) →
    splitP (fun c => decide (c = '|')) (mdRowLine cells) = [] :: (cells.map padCell ++ [[]]) := by
  intro cells
  induction cells with
  | nil => intro h _; exact absurd rfl h
  | cons a rest ih =>
    intro _ hnp
    cases rest with
    | nil =>
      rw [mdRowLine_single, splitP_cons_sep _ _ _ (by decide),
        show padCell a ++ ['|'] = padCell a ++ '|' :: [] from rfl,
        splitP_append_sep _ '|' (by decide) (padCell a) []
          (padCell_no_pipe (hnp a (by simp)))]
      rfl
    | cons b cs2 =>
      have hM : mdRowLine (b :: cs2) =
          '|' :: (' ' :: (interc (sd " | ") (b :: cs2) ++ sd " |")) := rfl
      have hIH := ih (by simp) (fun cl hcl => hnp cl (by simp [hcl]))
      rw [hM, splitP_cons_sep _ _ _ (by decide)] at hIH
      have hM2 : splitP (fun c => decide (c = '|'))
          (' ' :: (interc (sd " | ") (b :: cs2) ++ sd " |")) =
          (b :: cs2).map padCell ++ [[]] := by
        injection hIH
      rw [mdRowLine_cons_cons, splitP_cons_sep _ _ _ (by decide), hM,
        splitP_append_sep _ '|' (by decide) (padCell a) _
          (padCell_no_pipe (hnp a (by simp))), hM2]
      rfl

theorem parseCells_mdRowLine (cells : List Str) (hne : cells ≠ [])
    (hw : ∀ cl ∈ cells, wfCell cl = true) :
    parseCells (mdRowLine cells) = cells := by
  unfold parseCells
  rw [splitP_mdRowLine cells hne (fun cl hcl => wfCell_no_pipe (hw cl hcl))]
  have hdl : (cells.map padCell ++ [[]]).dropLast = cells.map padCell := by simp
  rw [List.drop_succ_cons, List.drop_zero, hdl, List.map_map]
  have hid : ∀ cl ∈ cells, (stripWs ∘ padCell) cl = id cl := fun cl hcl =>
    stripWs_pad cl (wfCell_head (hw cl hcl)) (wfCell_last (hw cl hcl))
  rw [List.map_congr_left hid, List.map_id]

theorem filterMap_all_some {α β : Type} (f : α → Option β) (g : α → β) :
    ∀ l : List α, (∀ a ∈ l, f a = some (g a)) → l.filterMap f = l.map g := by
  intro l
  induction l with
  | nil => intro _; rfl
  | cons a l ih =>
    intro h
    rw [List.filterMap_cons, h a (by simp), ih (fun x hx => h x (by simp [hx])), List.map_cons]

theorem formatEntityTable_lines (cols : List Str) (rows : List (List Str)) (h : rows ≠ []) :
    formatEntityTable cols rows =
      ((mdRowLine cols :: sepLine cols.length :: rows.map mdRowLine).map
        (fun l => l ++ ['\n'])).flatten := by
  unfold formatEntityTable
  rw [if_neg (by simpa using h)]
  simp [List.map_map, Function.comp_def, List.append_assoc]

/-- The generic grid round trip: for a nonempty frame whose header line
contains the detection literal and whose cells are well formed, parsing the
formatted table returns exactly the column list and the cell matrix. -/
theorem parse_format (cols : List Str) (rows : List (List Str))
    (hne : rows ≠ []) (hcne : cols ≠ [])
    (hhead : hasSub headerPat (mdRowLine cols) = true)
    (hcols : parseCells (mdRowLine cols) = cols)
    (hcw : ∀ cl ∈ cols, wfCell cl = true)
    (hlen : ∀ row ∈ rows, row.length = cols.length)
    (hw : ∀ row ∈ rows, ∀ cl ∈ row, wfCell cl = true) :
    parseTable (formatEntityTable cols rows) = some (cols, rows) := by
  rw [formatEntityTable_lines cols rows hne]
  unfold parseTable
  have hnlr : ∀ l ∈ (mdRowLine cols :: sepLine cols.length :: rows.map mdRowLine),
      ∀ x ∈ l, (decide (x = '\n')) = false := by
    intro l hl x hx
    simp only [List.mem_cons] at hl
    have hxn : x ≠ '\n' := by
      rcases hl with hl | hl | hl
      · subst hl
        rcases mem_mdRowLine cols x hx with h1 | h1 | ⟨cl, hcl, hxc⟩
        · subst h1; decide
        · subst h1; decide
        · exact fun hh => wfCell_no_nl (hcw cl hcl) (hh ▸ hxc)
      · subst hl
        rcases mem_sepLine cols.length x hx with h1 | h1
        · subst h1; decide
        · subst h1; decide
      · obtain ⟨row, hrow, rfl⟩ := List.mem_map.mp hl
        rcases mem_mdRowLine row x hx with h1 | h1 | ⟨cl, hcl, hxc⟩
        · subst h1; decide
        · subst h1; decide
        · exact fun hh => wfCell_no_nl (hw row hrow cl hcl) (hh ▸ hxc)
    simp [hxn]
  rw [splitP_terminated _ '\n' (by decide) _ hnlr]
  simp only [List.cons_append]
  rw [List.findIdx?_cons, if_pos hhead]
  dsimp only
  have hget : (mdRowLine cols :: sepLine cols.length ::
      (rows.map mdRowLine ++ [[]])).getD 0 [] = mdRowLine cols := rfl
  have hdrop : (mdRowLine cols :: sepLine cols.length ::
      (rows.map mdRowLine ++ [[]])).drop (0 + 2) = rows.map mdRowLine ++ [[]] := rfl
  simp only [hget, hdrop, hcols]
  have hallp : ∀ l ∈ rows.map mdRowLine, (decide (l.head? = some '|')) = true := by
    intro l hl
    obtain ⟨row, _, rfl⟩ := List.mem_map.mp hl
    simp [show (mdRowLine row).head? = some '|' from rfl]
  rw [takeWhile_append_all _ _ _ hallp,
    show (([[]] : List Str).takeWhile (fun l => decide (l.head? = some '|'))) = [] by decide,
    List.append_nil, List.filterMap_map]
  have hfm : ∀ row ∈ rows,
      ((fun l => if (parseCells l).length = cols.length then some (parseCells l) else none) ∘
        mdRowLine) row = some (id row) := by
    intro row hrow
    have hrne : row ≠ [] := by
      intro hh
      subst hh
      have := hlen [] hrow
      simp at this
      exact hcne (List.eq_nil_of_length_eq_zero this.symm)
    simp only [Function.comp_apply]
    rw [parseCells_mdRowLine row hrne (hw row hrow)]
    simp [hlen row hrow]
  rw [filterMap_all_some _ _ rows hfm, List.map_id]

theorem splitCS_ne_nil : ∀ s : Str, splitCS s ≠ [] := by
  intro s
  induction s with
  | nil => simp [splitCS]
  | cons c rest ih =>
    rw [splitCS.eq_def]
    split
    · simp
    · simp
    · split
      · simp_all
      · simp

theorem splitCS_cons_ne (c : Char) (rest : Str) (hc : c ≠ ',') :
    ∀ h t, splitCS rest = h :: t → splitCS (c :: rest) = (c :: h) :: t := by
  intro h t hr
  rw [splitCS.eq_def]
  split
  · simp_all
  · rename_i heq
    exfalso
    injection heq with h1 h2
    exact hc h1
  · rename_i x y heq
    injection heq with h1 h2
    subst h1 h2
    rw [hr]

theorem splitCS_sep (rest : Str) : splitCS (',' :: ' ' :: rest) = [] :: splitCS rest := rfl

theorem splitCS_no_comma : ∀ d : Str, ',' ∉ d → splitCS d = [d] := by
  intro d
  induction d with
  | nil => intro _; rfl
  | cons c d' ih =>
    intro h
    exact splitCS_cons_ne c d' (fun hh => h (by simp [hh])) d' []
      (ih (fun hm => h (by simp [hm])))

theorem splitCS_append : ∀ (d : Str), ',' ∉ d → ∀ s : Str,
    splitCS (d ++ ',' :: ' ' :: s) = d :: splitCS s := by
  intro d
  induction d with
  | nil => intro _ s; exact splitCS_sep s
  | cons c d' ih =>
    intro h s
    have h1 := ih (fun hm => h (by simp [hm])) s
    exact splitCS_cons_ne c (d' ++ ',' :: ' ' :: s) (fun hh => h (by simp [hh])) _ _ h1

theorem splitCS_joinDocs : ∀ docs : List Str, docs ≠ [] → (∀ d ∈ docs, ',' ∉ d) →
    splitCS (joinDocs docs) = docs := by
  intro docs
  induction docs with
  | nil => intro h _; exact absurd rfl h
  | cons d rest ih =>
    intro _ h
    cases rest with
    | nil => exact splitCS_no_comma d (h d (by simp))
    | cons e r =>
      have hj : joinDocs (d :: e :: r) = d ++ ',' :: ' ' :: joinDocs (e :: r) := by
        show interc (sd ", ") (d :: e :: r) = d ++ ',' :: ' ' :: interc (sd ", ") (e :: r)
        rw [interc]
        simp [show sd ", " = [',', ' '] from rfl, List.append_assoc]
      rw [hj, splitCS_append d (h d (by simp)), ih (by simp) (fun x hx => h x (by simp [hx]))]

/- ===== Lemmas: sorting (Python `sorted`, pandas group keys) ===== -/

theorem insOrd_perm {α : Type} (le : α → α → Bool) (x : α) :
    ∀ l : List α, (insOrd le x l).Perm (x :: l) := by
  intro l
  induction l with
  | nil => exact List.Perm.refl _
  | cons y ys ih =>
    rw [insOrd]
    split
    · exact List.Perm.refl _
    · exact (ih.cons y).trans (List.Perm.swap x y ys)

theorem insSort_perm {α : Type} (le : α → α → Bool) :
    ∀ l : List α, (insSort le l).Perm l := by
  intro l
  induction l with
  | nil => exact List.Perm.refl _
  | cons x xs ih =>
    rw [insSort]
    exact (insOrd_perm le x (insSort le xs)).trans (ih.cons x)

theorem insOrd_sorted {α : Type} (le : α → α → Bool)
    (htot : ∀ a b, le a b = true ∨ le b a = true)
    (htr : ∀ a b c, le a b = true → le b c = true → le a c = true) (x : α) :
    ∀ l : List α, sortedLe le l → sortedLe le (insOrd le x l) := by
  intro l
  induction l with
  | nil => intro _; simp [insOrd, sortedLe]
  | cons y ys ih =>
    intro hs
    obtain ⟨hy, hys⟩ := List.pairwise_cons.mp hs
    rw [insOrd]
    split
    · rename_i hxy
      refine List.pairwise_cons.mpr ⟨?_, hs⟩
      intro z hz
      rcases List.mem_cons.mp hz with rfl | hz2
      · exact hxy
      · exact htr x y z hxy (hy z hz2)
    · rename_i hxy
      have hyx : le y x = true := by
        rcases htot x y with h | h
        · exact absurd h hxy
        · exact h
      refine List.pairwise_cons.mpr ⟨?_, ih hys⟩
      intro z hz
      have hz3 := (insOrd_perm le x ys).mem_iff.mp hz
      rcases List.mem_cons.mp hz3 with rfl | hz2
      · exact hyx
      · exact hy z hz2

theorem insSort_sorted {α : Type} (le : α → α → Bool)
    (htot : ∀ a b, le a b = true ∨ le b a = true)
    (htr : ∀ a b c, le a b = true → le b c = true → le a c = true) :
    ∀ l : List α, sortedLe le (insSort le l) := by
  intro l
  induction l with
  | nil => simp [insSort, sortedLe]
  | cons x xs ih => exact insOrd_sorted le htot htr x _ ih

theorem insSort_of_sorted {α : Type} (le : α → α → Bool) :
    ∀ l : List α, sortedLe le l → insSort le l = l := by
  intro l
  induction l with
  | nil => intro _; rfl
  | cons x xs ih =>
    intro hs
    obtain ⟨hx, hxs⟩ := List.pairwise_cons.mp hs
    rw [insSort, ih hxs]
    cases xs with
    | nil => rfl
    | cons y ys =>
      rw [insOrd, if_pos (hx y (by simp))]

theorem leStr_total : ∀ a b : Str, leStr a b = true ∨ leStr b a = true := by
  intro a
  induction a with
  | nil => intro b; left; rfl
  | cons x xs ih =>
    intro b
    cases b with
    | nil => right; rfl
    | cons y ys =>
      rw [leStr, leStr]
      rcases lt_trichotomy x y with h | h | h
      · left
        rw [if_pos h]
      · subst h
        rw [if_neg (lt_irrefl x), if_neg (lt_irrefl x), if_neg (lt_irrefl x),
          if_neg (lt_irrefl x)]
        exact ih ys
      · right
        rw [if_pos h]

theorem leStr_trans : ∀ a b c : Str, leStr a b = true → leStr b c = true → leStr a c = true := by
  intro a
  induction a with
  | nil => intro b c _ _; rfl
  | cons x xs ih =>
    intro b c hab hbc
    cases b with
    | nil => rw [leStr] at hab; simp at hab
    | cons y ys =>
      cases c with
      | nil => rw [leStr] at hbc; simp at hbc
      | cons z zs =>
        rw [leStr] at hab hbc ⊢
        rcases lt_trichotomy x y with h1 | h1 | h1
        · rcases lt_trichotomy y z with h2 | h2 | h2
          · rw [if_pos (lt_trans h1 h2)]
          · subst h2
            rw [if_pos h1]
          · rw [if_neg (lt_asymm h2), if_pos h2] at hbc
            simp at hbc
        · subst h1
          rw [if_neg (lt_irrefl x), if_neg (lt_irrefl x)] at hab
          rcases lt_trichotomy x z with h2 | h2 | h2
          · rw [if_pos h2]
          · subst h2
            rw [if_neg (lt_irrefl x), if_neg (lt_irrefl x)] at hbc ⊢
            exact ih ys zs hab hbc
          · rw [if_neg (lt_asymm h2), if_pos h2] at hbc
            simp at hbc
        · rw [if_neg (lt_asymm h1), if_pos h1] at hab
          simp at hab

theorem wfDocId_ne_nil {d : Str} (h : wfDocId d = true) : d ≠ [] := by
  unfold wfDocId at h
  simp only [Bool.and_eq_true] at h
  intro hh
  subst hh
  simp at h

theorem wfDocId_no_comma {d : Str} (h : wfDocId d = true) : ',' ∉ d := by
  unfold wfDocId at h
  simp only [Bool.and_eq_true, List.all_eq_true] at h
  intro hm
  have := h.1.2 _ hm
  simp at this

theorem wfDocId_wfCell {d : Str} (h : wfDocId d = true) : wfCell d = true := by
  unfold wfDocId at h
  simp only [Bool.and_eq_true] at h
  exact h.2

theorem wfCell_chars {cl : Str} (h : wfCell cl = true) :
    ∀ x ∈ cl, x ≠ '|' ∧ x ≠ '\n' :=
  fun _x hx => ⟨fun hh => wfCell_no_pipe h (hh ▸ hx), fun hh => wfCell_no_nl h (hh ▸ hx)⟩

theorem interc_head (sep : Str) (d : Str) (rest : List Str) (hd : d ≠ []) :
    (interc sep (d :: rest)).head? = d.head? := by
  cases rest with
  | nil => rfl
  | cons b r =>
    cases d with
    | nil => exact absurd rfl hd
    | cons c d' => rfl

theorem interc_ne_nil (sep : Str) (d : Str) (rest : List Str) (hd : d ≠ []) :
    interc sep (d :: rest) ≠ [] := by
  intro hh
  have h1 := interc_head sep d rest hd
  rw [hh] at h1
  cases d with
  | nil => exact hd rfl
  | cons c d' => simp at h1

theorem interc_getLast (sep : Str) : ∀ (docs : List Str) (d : Str),
    docs.getLast? = some d → (∀ e ∈ docs, e ≠ []) →
    (interc sep docs).getLast? = d.getLast? := by
  intro docs
  induction docs with
  | nil => intro d h _; simp at h
  | cons a rest ih =>
    intro d h hne
    cases rest with
    | nil =>
      have had : a = d := by simpa using h
      subst had
      rfl
    | cons b r =>
      rw [List.getLast?_cons_cons] at h
      have h2 := ih d h (fun e he => hne e (by simp [he]))
      have hd : d ≠ [] := hne d (by simp [List.mem_of_getLast?_eq_some h])
      obtain ⟨dd, hdd⟩ : ∃ dd, d.getLast? = some dd :=
        Option.isSome_iff_exists.mp ((List.getLast?_isSome (l := d)).mpr hd)
      have hin : interc sep (a :: b :: r) = (a ++ sep) ++ interc sep (b :: r) := by
        rw [interc]
      rw [hin, List.getLast?_append, h2, hdd]
      rfl

theorem wfCell_joinDocs (docs : List Str) (hne : docs ≠ [])
    (h : ∀ d ∈ docs, wfDocId d = true) : wfCell (joinDocs docs) = true := by
  unfold wfCell
  simp only [Bool.and_eq_true]
  refine ⟨⟨?_, ?_⟩, ?_⟩
  · refine List.all_eq_true.mpr ?_
    intro x hx
    rcases mem_interc _ _ _ hx with hs | ⟨q, hq, hxq⟩
    · rw [show sd ", " = [',', ' '] from rfl] at hs
      simp at hs
      rcases hs with rfl | rfl
      · decide
      · decide
    · obtain ⟨h1, h2⟩ := wfCell_chars (wfDocId_wfCell (h q hq)) x hxq
      simp [h1, h2]
  · cases docs with
    | nil => exact absurd rfl hne
    | cons d rest =>
      have hd := wfDocId_ne_nil (h d (by simp))
      rw [show joinDocs (d :: rest) = interc (sd ", ") (d :: rest) from rfl,
        interc_head _ d rest hd]
      cases hh : d.head? with
      | none => rfl
      | some c =>
        simpa using wfCell_head (wfDocId_wfCell (h d (by simp))) c hh
  · obtain ⟨dl, hdl⟩ : ∃ dl, docs.getLast? = some dl :=
      Option.isSome_iff_exists.mp ((List.getLast?_isSome (l := docs)).mpr hne)
    have hdlm : dl ∈ docs := List.mem_of_getLast?_eq_some hdl
    rw [show joinDocs docs = interc (sd ", ") docs from rfl,
      interc_getLast _ docs dl hdl (fun e he => wfDocId_ne_nil (h e he))]
    cases hh : dl.getLast? with
    | none => rfl
    | some c =>
      simpa using wfCell_last (wfDocId_wfCell (h dl hdlm)) c hh

/-- C3 (amended): for a nonempty well-formed table of either kind —
cells free of pipes and newlines, not whitespace-padded at the edges, and
document-id lists nonempty, sorted, deduplicated-by-sortedness and
comma-free — decoding the encoded grid reconstructs exactly the same
records with the same field values; the multi-valued `source_documents`
field round-trips as the comma-joined string, which splitting and
re-sorting on decode turns back into the original list. -/
theorem codec_round_trip :
    (∀ rs : List Row, rs ≠ [] →
      (∀ r ∈ rs, wfCell r.etype = true ∧ wfCell r.name = true ∧ wfCell r.ctx = true) →
      parseTable (encodeDocTable rs) =
        some (docCols, rs.map (fun r => [r.etype, r.name, r.ctx]))) ∧
    (∀ rs : List ARecord, rs ≠ [] →
      (∀ r ∈ rs, wfCell r.etype = true ∧ wfCell r.name = true ∧ wfCell r.ctx = true ∧
        r.docs ≠ [] ∧ sortedLe leStr r.docs ∧ ∀ d ∈ r.docs, wfDocId d = true) →
      parseTable (encodeAggTable rs) =
          some (aggCols, rs.map (fun r => [r.etype, r.name, r.ctx, joinDocs r.docs])) ∧
        ∀ r ∈ rs, insSort leStr (splitCS (joinDocs r.docs)) = r.docs) := by
  constructor
  · intro rs hne hw
    unfold encodeDocTable
    apply parse_format
    · simpa using hne
    · decide
    · decide
    · decide
    · decide
    · intro row hrow
      obtain ⟨r, _, rfl⟩ := List.mem_map.mp hrow
      rfl
    · intro row hrow cl hcl
      obtain ⟨r, hr, rfl⟩ := List.mem_map.mp hrow
      obtain ⟨h1, h2, h3⟩ := hw r hr
      simp at hcl
      rcases hcl with rfl | rfl | rfl
      · exact h1
      · exact h2
      · exact h3
  · intro rs hne hw
    constructor
    · unfold encodeAggTable
      apply parse_format
      · simpa using hne
      · decide
      · decide
      · decide
      · decide
      · intro row hrow
        obtain ⟨r, _, rfl⟩ := List.mem_map.mp hrow
        rfl
      · intro row hrow cl hcl
        obtain ⟨r, hr, rfl⟩ := List.mem_map.mp hrow
        obtain ⟨h1, h2, h3, h4, _, h6⟩ := hw r hr
        simp at hcl
        rcases hcl with rfl | rfl | rfl | rfl
        · exact h1
        · exact h2
        · exact h3
        · exact wfCell_joinDocs r.docs h4 h6
    · intro r hr
      obtain ⟨_, _, _, h4, h5, h6⟩ := hw r hr
      rw [splitCS_joinDocs r.docs h4 (fun d hd => wfDocId_no_comma (h6 d hd))]
      exact insSort_of_sorted leStr r.docs h5

/-- C3 witness: a concrete one-row document table and a concrete one-row
aggregated table round-trip through the codec. -/
theorem codec_round_trip_witness :
    parseTable (encodeDocTable [⟨sd "ORG", sd "Apple", sd "ctx a"⟩]) =
        some (docCols, [[sd "ORG", sd "Apple", sd "ctx a"]]) ∧
      parseTable (encodeAggTable [⟨sd "ORG", sd "Apple", sd "ctx a", [sd "a.md", sd "b.md"]⟩]) =
        some (aggCols, [[sd "ORG", sd "Apple", sd "ctx a", joinDocs [sd "a.md", sd "b.md"]]]) ∧
      insSort leStr (splitCS (joinDocs [sd "a.md", sd "b.md"])) = [sd "a.md", sd "b.md"] := by
  have h1 := codec_round_trip.1 [⟨sd "ORG", sd "Apple", sd "ctx a"⟩] (by simp) (by decide)
  have h2 := codec_round_trip.2 [⟨sd "ORG", sd "Apple", sd "ctx a", [sd "a.md", sd "b.md"]⟩]
    (by simp) (by decide)
  exact ⟨h1, h2.1,
    h2.2 ⟨sd "ORG", sd "Apple", sd "ctx a", [sd "a.md", sd "b.md"]⟩ (by simp)⟩

/-- C3 (counterexample): the empty table — well-formed, and genuinely
written by the pipeline for entity-free documents — does not round-trip:
for an empty record list the formatter emits the fixed text
`No entities found.`, in which the parser finds no header line and returns
`None` instead of reconstructing the empty record set. This refutes the
original claim that `decode(encode(T)) == T` for every well-formed table. -/
theorem codec_round_trip_cex :
    parseTable (encodeDocTable []) = none ∧ parseTable (encodeAggTable []) = none := by
  constructor
  · decide
  · decide

/- ===== Lemmas: Cross-Document Aggregator (C2) ===== -/

theorem combined_cons (t : DocTable) (ts : List DocTable) :
    combined (t :: ts) = t.2.map (fun r => (r, t.1)) ++ combined ts := by
  unfold combined
  simp

theorem mem_combined (ts : List DocTable) (p : Row × Str) :
    p ∈ combined ts ↔ ∃ t ∈ ts, ∃ r ∈ t.2, p = (r, t.1) := by
  unfold combined
  simp only [List.mem_flatten, List.mem_map]
  constructor
  · rintro ⟨l, ⟨t, ht, rfl⟩, hp⟩
    obtain ⟨r, hr, rfl⟩ := List.mem_map.mp hp
    exact ⟨t, ht, r, hr, rfl⟩
  · rintro ⟨t, ht, r, hr, rfl⟩
    exact ⟨t.2.map (fun r => (r, t.1)), ⟨t, ht, rfl⟩, List.mem_map.mpr ⟨r, hr, rfl⟩⟩

theorem mem_aggKeys (ts : List DocTable) (k : Str × Str) :
    k ∈ aggKeys ts ↔ ∃ p ∈ combined ts, keyR p.1 = k := by
  unfold aggKeys
  rw [(insSort_perm leKey _).mem_iff, List.mem_dedup, List.mem_map]

theorem aggKeys_nodup (ts : List DocTable) : (aggKeys ts).Nodup :=
  (insSort_perm leKey _).nodup_iff.mpr (List.nodup_dedup _)

theorem aggGroup_head (ts : List DocTable) (k : Str × Str) (h : k ∈ aggKeys ts) :
    ∃ p0, (aggGroup ts k).head? = some p0 ∧ p0 ∈ combined ts ∧ keyR p0.1 = k := by
  obtain ⟨p, hp, hpk⟩ := (mem_aggKeys ts k).mp h
  have hpf : p ∈ aggGroup ts k := List.mem_filter.mpr ⟨hp, by simp [hpk]⟩
  cases hg : aggGroup ts k with
  | nil => rw [hg] at hpf; simp at hpf
  | cons q qs =>
    have hq : q ∈ aggGroup ts k := by rw [hg]; simp
    obtain ⟨hqc, hqk⟩ := List.mem_filter.mp hq
    refine ⟨q, rfl, hqc, ?_⟩
    simpa using hqk

theorem aggRecord_key (ts : List DocTable) (k : Str × Str) (h : k ∈ aggKeys ts) :
    aKey (aggRecord ts k) = k := by
  obtain ⟨p0, hh, _, hk⟩ := aggGroup_head ts k h
  unfold aKey aggRecord
  rw [hh]
  simp only [Option.map_some', Option.getD_some]
  have h2 : normalizeEntity p0.1.name = k.2 := congrArg Prod.snd hk
  rw [h2]

theorem filter_combined_head : ∀ (ts : List DocTable) (k : Str × Str) (p0 : Row × Str),
    (aggGroup ts k).head? = some p0 →
    ∃ pre tt post, ts = pre ++ tt :: post ∧ (∀ t2 ∈ pre, ¬ contributes t2 k) ∧
      p0.1 ∈ tt.2 ∧ p0.2 = tt.1 ∧ keyR p0.1 = k := by
  intro ts
  induction ts with
  | nil =>
    intro k p0 h
    simp [aggGroup, combined] at h
  | cons t ts' ih =>
    intro k p0 h
    rw [aggGroup, combined_cons, List.filter_append] at h
    cases hfe : (t.2.map (fun r => (r, t.1))).filter (fun p => decide (keyR p.1 = k)) with
    | nil =>
      rw [hfe, List.nil_append] at h
      obtain ⟨pre, tt, post, hts, hpre, hmem, hdoc, hkey⟩ := ih k p0 h
      refine ⟨t :: pre, tt, post, by rw [hts]; rfl, ?_, hmem, hdoc, hkey⟩
      intro t2 ht2
      rcases List.mem_cons.mp ht2 with rfl | ht2'
      · intro hcon
        obtain ⟨r, hr, hrk⟩ := hcon
        have := List.filter_eq_nil_iff.mp hfe (r, t2.1) (List.mem_map.mpr ⟨r, hr, rfl⟩)
        simp [hrk] at this
      · exact hpre t2 ht2'
    | cons q qs =>
      rw [hfe] at h
      simp only [List.cons_append, List.head?_cons, Option.some.injEq] at h
      subst h
      have hq : q ∈ (t.2.map (fun r => (r, t.1))).filter (fun p => decide (keyR p.1 = k)) := by
        rw [hfe]
        simp
      obtain ⟨hqm, hqk⟩ := List.mem_filter.mp hq
      obtain ⟨r, hr, rfl⟩ := List.mem_map.mp hqm
      exact ⟨[], t, ts', rfl, by simp, hr, rfl, by simpa using hqk⟩

/-- C2 (confirmed): for every corpus of loaded document tables, the
aggregated output has pairwise-distinct `(type, normalized_key)` pairs; its
key set is exactly the union of the input tables' key sets; every record's
`source_documents` is sorted, duplicate-free and holds exactly the ids of
the tables contributing its key; and every record's display name and first
context come from a record of the first table, in the supplied order, that
contributes its key. -/
theorem aggregate_spec (ts : List DocTable) :
    ((aggregate ts).map aKey).Nodup ∧
    (∀ k, (∃ rec ∈ aggregate ts, aKey rec = k) ↔ ∃ t ∈ ts, contributes t k) ∧
    (∀ rec ∈ aggregate ts,
      sortedLe leStr rec.docs ∧ rec.docs.Nodup ∧
      (∀ dd, dd ∈ rec.docs ↔ ∃ t ∈ ts, t.1 = dd ∧ contributes t (aKey rec))) ∧
    (∀ rec ∈ aggregate ts, ∃ pre tt post, ts = pre ++ tt :: post ∧
      (∀ t2 ∈ pre, ¬ contributes t2 (aKey rec)) ∧
      ∃ r ∈ tt.2, keyR r = aKey rec ∧ rec.name = r.name ∧ rec.ctx = r.ctx) := by
  have hmap : (aggregate ts).map aKey = aggKeys ts := by
    unfold aggregate
    rw [List.map_map]
    have hcg : List.map (aKey ∘ aggRecord ts) (aggKeys ts) = List.map id (aggKeys ts) :=
      List.map_congr_left (fun k hk => aggRecord_key ts k hk)
    rw [hcg, List.map_id]
  refine ⟨?_, ?_, ?_, ?_⟩
  · rw [hmap]
    exact aggKeys_nodup ts
  · intro k
    constructor
    · rintro ⟨rec, hrec, rfl⟩
      obtain ⟨k', hk', rfl⟩ := List.mem_map.mp hrec
      rw [aggRecord_key ts k' hk']
      obtain ⟨p, hp, hpk⟩ := (mem_aggKeys ts k').mp hk'
      obtain ⟨t, ht, r, hr, rfl⟩ := (mem_combined ts p).mp hp
      exact ⟨t, ht, r, hr, hpk⟩
    · rintro ⟨t, ht, r, hr, hrk⟩
      have hk : k ∈ aggKeys ts := (mem_aggKeys ts k).mpr
        ⟨(r, t.1), (mem_combined ts _).mpr ⟨t, ht, r, hr, rfl⟩, hrk⟩
      exact ⟨aggRecord ts k, List.mem_map.mpr ⟨k, hk, rfl⟩, aggRecord_key ts k hk⟩
  · intro rec hrec
    obtain ⟨k, hk, rfl⟩ := List.mem_map.mp hrec
    rw [aggRecord_key ts k hk]
    simp only [aggRecord]
    refine ⟨insSort_sorted leStr leStr_total leStr_trans _,
      (insSort_perm leStr _).nodup_iff.mpr (List.nodup_dedup _), ?_⟩
    intro dd
    rw [(insSort_perm leStr _).mem_iff, List.mem_dedup, List.mem_map]
    constructor
    · rintro ⟨p, hp, rfl⟩
      obtain ⟨hpc, hpk⟩ := List.mem_filter.mp hp
      obtain ⟨t, ht, r, hr, rfl⟩ := (mem_combined ts p).mp hpc
      exact ⟨t, ht, rfl, r, hr, by simpa using hpk⟩
    · rintro ⟨t, ht, rfl, r, hr, hrk⟩
      exact ⟨(r, t.1),
        List.mem_filter.mpr ⟨(mem_combined ts _).mpr ⟨t, ht, r, hr, rfl⟩, by simp [hrk]⟩, rfl⟩
  · intro rec hrec
    obtain ⟨k, hk, rfl⟩ := List.mem_map.mp hrec
    rw [aggRecord_key ts k hk]
    obtain ⟨p0, hh, _, hpk⟩ := aggGroup_head ts k hk
    obtain ⟨pre, tt, post, hts, hpre, hmem, _, hkey⟩ := filter_combined_head ts k p0 hh
    refine ⟨pre, tt, post, hts, hpre, p0.1, hmem, hkey, ?_, ?_⟩
    · show (aggRecord ts k).name = p0.1.name
      unfold aggRecord
      rw [hh]
      rfl
    · show (aggRecord ts k).ctx = p0.1.ctx
      unfold aggRecord
      rw [hh]
      rfl

/-- C2 witness: the docs clause of the specification instantiated at the
concrete two-document corpus and its concrete aggregated `ORG` record. -/
theorem aggregate_spec_witness :
    sortedLe leStr
        (ARecord.docs ⟨sd "ORG", sd "Apple Inc", sd "c1", [sd "a.md", sd "b.md"]⟩) ∧
      (ARecord.docs ⟨sd "ORG", sd "Apple Inc", sd "c1", [sd "a.md", sd "b.md"]⟩).Nodup ∧
      (∀ dd, dd ∈ ARecord.docs ⟨sd "ORG", sd "Apple Inc", sd "c1", [sd "a.md", sd "b.md"]⟩ ↔
        ∃ t ∈ [((sd "b.md", [⟨sd "ORG", sd "Apple Inc", sd "c1"⟩]) : DocTable),
            ((sd "a.md", [⟨sd "ORG", sd "APPLE CORP.", sd "c2"⟩,
              ⟨sd "PERSON", sd "Tim", sd "c3"⟩]) : DocTable)],
          t.1 = dd ∧
            contributes t (aKey ⟨sd "ORG", sd "Apple Inc", sd "c1", [sd "a.md", sd "b.md"]⟩)) :=
  (aggregate_spec
      [(sd "b.md", [⟨sd "ORG", sd "Apple Inc", sd "c1"⟩]),
       (sd "a.md", [⟨sd "ORG", sd "APPLE CORP.", sd "c2"⟩,
         ⟨sd "PERSON", sd "Tim", sd "c3"⟩])]).2.2.1
    ⟨sd "ORG", sd "Apple Inc", sd "c1", [sd "a.md", sd "b.md"]⟩ (by decide)

